import Mathlib

set_option maxRecDepth 4000

/-!
Verification of the RAG pipeline sources (`src/rag_pipeline.py`,
`src/impl/retriever.py`, `src/impl/evaluator.py`,
`src/impl/response_generator.py`) against their specification.

Numbers: CPython floats are IEEE-754 binary64 values; every float arising
here is modelled as the exact rational it denotes, and every float
operation as the exact operation followed by correct rounding (round to
nearest, ties to even), which is what CPython guarantees for `/`, `round`
and string formatting.  External collaborators (Cohere rerank, OpenAI
embeddings/chat, the datastore) are modelled as oracle parameters.
-/

attribute [local semireducible] Rat.mul Rat.add Rat.inv Rat.sub Rat.ofScientific

/-- Fuel-driven binary floor-logarithm: for `1 ≤ n ≤ fuel`, the greatest `k`
with `2 ^ k ≤ n` (kernel-reducible counterpart of `Nat.log 2`). -/
def natLog2F : ℕ → ℕ → ℕ
  | 0, _ => 0
  | fuel + 1, n => if n ≤ 1 then 0 else natLog2F fuel (n / 2) + 1

/-- Fuel-driven binary ceiling-logarithm: for `1 ≤ n ≤ fuel`, the least `k`
with `n ≤ 2 ^ k` (kernel-reducible counterpart of `Nat.clog 2`). -/
def natClog2F : ℕ → ℕ → ℕ
  | 0, _ => 0
  | fuel + 1, n => if n ≤ 1 then 0 else natClog2F fuel ((n + 1) / 2) + 1

/-- Kernel-reducible floor-logarithm base 2 on the rationals, mirroring the
definition of `Int.log` (proved equal to it in `ratLog2_eq`). -/
def ratLog2 (q : ℚ) : ℤ :=
  if 1 ≤ q then natLog2F ⌊q⌋₊ ⌊q⌋₊ else -(natClog2F ⌈q⁻¹⌉₊ ⌈q⁻¹⌉₊ : ℤ)

/-- Round a rational to the nearest integer, ties to even.  This is the
rounding used both by IEEE-754 binary64 operations and by CPython's
correctly rounded decimal conversions (`round(x, n)`, `format`). -/
def rne (q : ℚ) : ℤ :=
  if q - ⌊q⌋ < 1/2 then ⌊q⌋
  else if 1/2 < q - ⌊q⌋ then ⌊q⌋ + 1
  else if ⌊q⌋ % 2 = 0 then ⌊q⌋ else ⌊q⌋ + 1

/-- The binary64 value nearest to a positive rational `q` (ties to even), as
an exact rational: `q` is scaled into `[2^52, 2^53)`, the significand is
rounded to an integer, and the result is scaled back.  The exponent is
unbounded: all doubles arising in this development are far from the
overflow/subnormal range, where binary64 agrees with this model. -/
def flPos (q : ℚ) : ℚ :=
  (rne (q * (2:ℚ) ^ ((52:ℤ) - ratLog2 q)) : ℚ) * (2:ℚ) ^ (ratLog2 q - 52)

/-- Correct binary64 rounding of a rational (rounding is symmetric under
negation). -/
def fl (q : ℚ) : ℚ :=
  if 0 < q then flPos q else if q < 0 then -flPos (-q) else 0

/-- CPython true division `a / b` of two machine integers: the exact
quotient, correctly rounded to binary64. -/
def pyDiv (a b : ℕ) : ℚ := fl ((a : ℚ) / (b : ℚ))

/-- CPython `round(x, 3)` on a float `x`: the exact value of `x` is rounded
to 3 fractional decimal digits (ties to even) and the resulting decimal is
converted to the nearest binary64. -/
def pyRound3 (x : ℚ) : ℚ := fl ((rne (x * 1000) : ℚ) / 1000)

/-- CPython `f"{x:.2f}"` on a float `x`: correctly rounded to 2 fractional
decimal digits (ties to even), with a leading sign for negative `x`
(including values that round to `-0.00`). -/
def fmt2 (x : ℚ) : String :=
  let m := (rne (|x| * 100)).toNat
  let body := toString (m / 100) ++ "." ++
    (if m % 100 < 10 then "0" else "") ++ toString (m % 100)
  if x < 0 then "-" ++ body else body

/-- Python `str.lower()` restricted to the alphabet actually reaching this
code path: ASCII letters plus the accented Spanish capitals occurring in the
keyword lists and fixed messages of `rag_pipeline.py`. -/
def lowerChar (c : Char) : Char :=
  if 'A' ≤ c ∧ c ≤ 'Z' then Char.ofNat (c.toNat + 32)
  else if c = 'Á' then 'á'
  else if c = 'É' then 'é'
  else if c = 'Í' then 'í'
  else if c = 'Ó' then 'ó'
  else if c = 'Ú' then 'ú'
  else if c = 'Ñ' then 'ñ'
  else if c = 'Ü' then 'ü'
  else c

def pyLower (s : String) : String := ⟨s.data.map lowerChar⟩

/-- Tokenizer loop for Python `str.split()` with no separator: split on
whitespace runs, dropping empty pieces.  `acc` is the current token,
reversed. -/
def tokensGo : List Char → List Char → List String
  | [], acc => if acc.isEmpty then [] else [String.mk acc.reverse]
  | c :: rest, acc =>
    if c.isWhitespace then
      if acc.isEmpty then tokensGo rest [] else String.mk acc.reverse :: tokensGo rest []
    else tokensGo rest (c :: acc)

/-- Python `str.split()` with no separator (whitespace = the ASCII
whitespace of `Char.isWhitespace`, which covers every character in the
analyzed strings). -/
def splitWS (s : String) : List String := tokensGo s.data []

/-- Does `needle` occur at the head of `hay`? -/
def leadMatch : List Char → List Char → Bool
  | [], _ => true
  | _ :: _, [] => false
  | a :: as, b :: bs => a == b && leadMatch as bs

/-- Does `needle` occur anywhere in `hay`? -/
def hasSub (needle : List Char) : List Char → Bool
  | [] => needle.isEmpty
  | c :: t => leadMatch needle (c :: t) || hasSub needle t

/-- Python substring test `needle in hay`. -/
def strContains (hay needle : String) : Bool := hasSub needle.data hay.data

/-- The investment-action keyword list of `ethical_guardrails`. -/
def investmentTerms : List String := ["comprar", "vender", "inversión", "rentabilidad futura"]

/-- The prediction keyword list of `ethical_guardrails`. -/
def predictionTerms : List String := ["predicción", "proyección", "estimado"]

def investmentRefusal : String :=
  "⚠️ No se permiten recomendaciones de inversión ni proyecciones financieras."

def predictionRefusal : String :=
  "⚠️ El sistema no realiza estimaciones ni predicciones. Solo resume información factual."

def sourceSuffix : String :=
  "\n\n📘 Fuente: Documentos IFRS públicos o reportes oficiales."

/-- `rag_pipeline.ethical_guardrails`. -/
def ethical_guardrails (response_text : String) : String :=
  let lowered := pyLower response_text
  if investmentTerms.any (fun x => strContains lowered x) then investmentRefusal
  else if predictionTerms.any (fun x => strContains lowered x) then predictionRefusal
  else response_text ++ sourceSuffix

/-- `rag_pipeline.is_grounded_in_context`: the number of distinct response
tokens occurring among the context tokens (`len(set(resp.split()) &
set(context_text.split()))`), divided — in binary64 — by
`max(1, len(resp.split()))`, compared against the double `0.15`. -/
def is_grounded_in_context (response : String) (context_list : List String) : Bool :=
  let context_text := pyLower (String.intercalate (" ") context_list)
  let resp := pyLower response
  let respToks := splitWS resp
  let ctxToks := splitWS context_text
  let inter := (respToks.dedup.filter (fun t => ctxToks.contains t)).length
  decide (fl (15/100) < pyDiv inter (max 1 respToks.length))

/-- Modelled from the spec: the `EvaluationResult` record of `src.interface`
(its declaration is outside the analyzed sources; spec section 3 gives the
fields). -/
structure EvaluationResult where
  question : String
  response : String
  expected_answer : String
  is_correct : Bool
  reasoning : String
deriving DecidableEq

structure MetricsSummary where
  accuracy : ℚ
  groundedness : ℚ
  hallucination_rate : ℚ
deriving DecidableEq

/-- `rag_pipeline.compute_metrics`.  Python raises `ZeroDivisionError` at the
first `correct / total` when the batch is empty; fallible behavior is made
explicit with `Except`. -/
def compute_metrics (results : List EvaluationResult) : Except String MetricsSummary :=
  if results.length = 0 then .error ("ZeroDivisionError: division by zero")
  else .ok
    ⟨pyRound3 (pyDiv (results.filter (fun r => r.is_correct)).length results.length),
     pyRound3 (pyDiv (results.filter
       (fun r => is_grounded_in_context r.response [r.expected_answer])).length results.length),
     pyRound3 (pyDiv (results.filter
       (fun r => !(is_grounded_in_context r.response [r.expected_answer]))).length results.length)⟩

instance {α β : Type} [DecidableEq α] [DecidableEq β] : DecidableEq (Except α β) :=
  fun a b =>
    match a, b with
    | .ok x, .ok y =>
      if h : x = y then .isTrue (by rw [h]) else .isFalse (by simp [h])
    | .error x, .error y =>
      if h : x = y then .isTrue (by rw [h]) else .isFalse (by simp [h])
    | .ok _, .error _ => .isFalse (by simp)
    | .error _, .ok _ => .isFalse (by simp)

/-- The grounding predicate exactly as the SPEC words it (for claim C1): the
ratio of distinct response tokens present in the context to the DISTINCT
response token count (minimum denominator 1), strictly greater than 0.15. -/
def spec_grounded (response : String) (context_list : List String) : Bool :=
  let context_text := pyLower (String.intercalate (" ") context_list)
  let resp := pyLower response
  let respToks := (splitWS resp).dedup
  let ctxToks := splitWS context_text
  let inter := (respToks.filter (fun t => ctxToks.contains t)).length
  decide ((15:ℚ)/100 < (inter : ℚ) / (max 1 respToks.length))

/-- difflib autojunk (SequenceMatcher `__chain_b` with `isjunk = None`): for
`b` of length `n ≥ 200`, an element with more than `n / 100 + 1` occurrences
is "popular" and is dropped from the index `b2j`; the junk set is empty. -/
def isPopular (b : List Char) (c : Char) : Bool :=
  decide (200 ≤ b.length) && decide (b.length / 100 + 1 < b.count c)

/-- difflib `b2j[c]`: the ascending positions of `c` in `b`, or absent
(empty) when `c` is popular. -/
def b2j (b : List Char) (c : Char) : List ℕ :=
  if isPopular b c then []
  else (List.range b.length).filter (fun j => b.get? j == some c)

/-- Indices scanned in row `i` of `find_longest_match`: the `b2j` entry of
`a[i]` restricted to `[blo, bhi)` (the Python loop `continue`s below `blo`
and `break`s at `bhi`; the entry is ascending, so this is a filter). -/
def rowJs (b : List Char) (blo bhi : ℕ) (c : Char) : List ℕ :=
  (b2j b c).filter (fun j => decide (blo ≤ j) && decide (j < bhi))

/-- One inner step of the `j2len` loop in `find_longest_match`:
`k = newj2len[j] = j2len.get(j-1, 0) + 1`, then best is replaced when
`k > bestsize` by `(i-k+1, j-k+1, k)`.  `prev` is the previous row of
`j2len` as a total function (0 for absent keys; `j2len.get(-1, 0)` is the
`j = 0` case).  The subtractions are ℕ-truncated; on the reachable values
`k ≤ i + 1` and `k ≤ j + 1` they agree with Python. -/
def flmStep (prev : ℕ → ℕ) (i : ℕ) :
    ((ℕ → ℕ) × ℕ × ℕ × ℕ) → ℕ → ((ℕ → ℕ) × ℕ × ℕ × ℕ) :=
  fun st j =>
    let k := (if j = 0 then 0 else prev (j - 1)) + 1
    let new2 := fun j2 => if j2 = j then k else st.1 j2
    if st.2.2.2 < k then (new2, i + 1 - k, j + 1 - k, k)
    else (new2, st.2.1, st.2.2.1, st.2.2.2)

/-- The `j2len` dynamic-programming phase of `find_longest_match`: state is
the current `j2len` row (total function) and the current best block
`(besti, bestj, bestsize)`, starting from `(alo, blo, 0)`. -/
def flmRows (a b : List Char) (alo ahi blo bhi : ℕ) : (ℕ → ℕ) × ℕ × ℕ × ℕ :=
  (List.range' alo (ahi - alo)).foldl
    (fun st i => (rowJs b blo bhi (a.getD i (' '))).foldl (flmStep st.1 i) ((fun _ => 0), st.2))
    ((fun _ => 0), alo, blo, 0)

/-- The first (non-junk) backward extension loop of `find_longest_match`
(structural recursion on `bi`; for `bi = 0` the `alo < bi` guard is false,
so the two definitions agree). -/
def extendLo (a b : List Char) (alo blo : ℕ) : ℕ → ℕ → ℕ → ℕ × ℕ × ℕ
  | 0, bj, bk => (0, bj, bk)
  | bi + 1, bj, bk =>
    if alo < bi + 1 ∧ blo < bj ∧ a.getD bi (' ') = b.getD (bj - 1) (' ') then
      extendLo a b alo blo bi (bj - 1) (bk + 1)
    else (bi + 1, bj, bk)

/-- Iteration core of the forward extension loop (fuel-driven; fuel
`ahi - (bi + bk)` dominates the iteration count, so exhaustion coincides
with the loop guard `bi + bk < ahi` failing). -/
def extendHiGo (a b : List Char) (ahi bhi bi bj : ℕ) : ℕ → ℕ → ℕ
  | 0, bk => bk
  | fuel + 1, bk =>
    if bi + bk < ahi ∧ bj + bk < bhi ∧ a.getD (bi + bk) (' ') = b.getD (bj + bk) (' ') then
      extendHiGo a b ahi bhi bi bj fuel (bk + 1)
    else bk

/-- The first (non-junk) forward extension loop of `find_longest_match`. -/
def extendHi (a b : List Char) (ahi bhi bi bj bk : ℕ) : ℕ × ℕ × ℕ :=
  (bi, bj, extendHiGo a b ahi bhi bi bj (ahi - (bi + bk)) bk)

/-- difflib `SequenceMatcher.find_longest_match` with `isjunk = None`: the
`j2len` phase, then the two non-junk extension loops.  (The junk set is
empty, so the two junk-extension loops never fire and are omitted.) -/
def findLongestMatch (a b : List Char) (alo ahi blo bhi : ℕ) : ℕ × ℕ × ℕ :=
  let st := flmRows a b alo ahi blo bhi
  let e1 := extendLo a b alo blo st.2.1 st.2.2.1 st.2.2.2
  extendHi a b ahi bhi e1.1 e1.2.1 e1.2.2

/-- difflib `get_matching_blocks` as a recursion (difflib drives the same
recursion with an explicit queue, then sorts and merges adjacent blocks;
that permutes/coalesces the list but leaves the total matched size — all
that `ratio` consumes — unchanged).  `fuel` bounds the depth. -/
def matchingBlocks (a b : List Char) : ℕ → ℕ → ℕ → ℕ → ℕ → List (ℕ × ℕ × ℕ)
  | 0, _, _, _, _ => []
  | fuel + 1, alo, ahi, blo, bhi =>
    let m := findLongestMatch a b alo ahi blo bhi
    if m.2.2 = 0 then []
    else matchingBlocks a b fuel alo m.1 blo m.2.1 ++
      m :: matchingBlocks a b fuel (m.1 + m.2.2) ahi (m.2.1 + m.2.2) bhi

/-- `sum(size for _, _, size in get_matching_blocks())`. -/
def matchedSize (a b : List Char) : ℕ :=
  ((matchingBlocks a b (a.length + b.length + 1) 0 a.length 0 b.length).map
    (fun m => m.2.2)).sum

/-- difflib `_calculate_ratio(matches, length)`: `2.0 * matches / length`
in binary64 (each int converts to the nearest double, each operation
rounds), or `1.0` when both sequences are empty. -/
def calcRatio (m len : ℕ) : ℚ :=
  if len = 0 then 1 else fl (fl (2 * fl (m : ℚ)) / fl (len : ℚ))

/-- difflib `SequenceMatcher(None, a, b).ratio()`. -/
def ratio (a b : List Char) : ℚ := calcRatio (matchedSize a b) (a.length + b.length)

/-- `Evaluator._text_similarity`:
`round(SequenceMatcher(None, text_a.lower(), text_b.lower()).ratio(), 3)`. -/
def text_similarity (text_a text_b : String) : ℚ :=
  pyRound3 (ratio (pyLower text_a).data (pyLower text_b).data)

/-- `Evaluator._semantic_similarity`.  `emb` is the outcome of the embedding
request plus the cosine computation (the network call and the binary64
dot/norm/sqrt arithmetic are abstracted into the oracle value): on success
the code returns `round(cosine, 3)`; any exception in the inner `try` is
caught, logged to the console only, and turned into `0.0`. -/
def semantic_similarity (emb : Except String ℚ) : ℚ :=
  match emb with
  | .ok cosine => pyRound3 cosine
  | .error _ => 0

structure EvalOutcome where
  result : EvaluationResult
  semCalled : Bool

def correctVerdict : String :=
  "✅ La respuesta coincide con la esperada o es semánticamente equivalente."

def incorrectVerdict : String :=
  "❌ La respuesta no coincide ni semánticamente con la esperada."

def evalErrorText : String := "⚠️ Error en evaluación: "

/-- `Evaluator.evaluate`.  `textExc` models an exception raised inside the
outer `try` at/before the literal comparison (caught by the outer
`except`); `emb` is the semantic-similarity oracle (see
`semantic_similarity` — its failures are caught one level deeper).  The
Python literal `0.75` is the exact double `3/4`; the literal `0.8` is the
double `fl (4/5)`.  `semCalled` records whether `_semantic_similarity` was
invoked. -/
def evaluate (question response expected_answer : String)
    (textExc : Option String) (emb : Except String ℚ) : EvalOutcome :=
  match textExc with
  | some e =>
    { result := ⟨question, response, expected_answer, false, evalErrorText ++ e⟩
      semCalled := false }
  | none =>
    let similarity := text_similarity response expected_answer
    let r1 := "Similarity: " ++ fmt2 similarity ++ ". "
    if (3:ℚ)/4 ≤ similarity then
      { result := ⟨question, response, expected_answer, true, r1 ++ correctVerdict⟩
        semCalled := false }
    else
      let semantic_score := semantic_similarity emb
      let r2 := r1 ++ "Semantic Similarity: " ++ fmt2 semantic_score ++ ". "
      if fl (4/5) ≤ semantic_score then
        { result := ⟨question, response, expected_answer, true, r2 ++ correctVerdict⟩
          semCalled := true }
      else
        { result := ⟨question, response, expected_answer, false, r2 ++ incorrectVerdict⟩
          semCalled := true }

/-- Outcome of one `co.rerank` call in `Retriever._rerank`. -/
inductive RerankOutcome where
  | success (indices : List ℕ)
  | tooMany
  | failure (msg : String)
deriving DecidableEq

/-- Observable timing/call events of `Retriever._rerank`. -/
inductive REvent where
  | delay (seconds : ℕ)
  | rerankCall (attempt : ℕ)
deriving DecidableEq

def rateLimitFatal : String := "Demasiados intentos fallidos con Cohere"

/-- The `for attempt in range(5) ... else: raise` loop of `Retriever._rerank`
starting at attempt `i` with `n` attempts left: every attempt sleeps 10 s and
calls the reranker; `TooManyRequestsError` sleeps `10 * (attempt + 1)` s and
retries; any other exception propagates; loop exhaustion (the `for`-`else`)
raises the fatal `RuntimeError`. -/
def rerankAttempts (attempts : ℕ → RerankOutcome) : ℕ → ℕ → List REvent × Except String (List ℕ)
  | _, 0 => ([], .error rateLimitFatal)
  | i, n + 1 =>
    match attempts i with
    | .success idx => ([.delay 10, .rerankCall i], .ok idx)
    | .failure m => ([.delay 10, .rerankCall i], .error m)
    | .tooMany =>
      let rest := rerankAttempts attempts (i + 1) n
      (.delay 10 :: .rerankCall i :: .delay (10 * (i + 1)) :: rest.1, rest.2)

/-- `Retriever._rerank`: one 6-second sleep, the 5-attempt loop, then
`[search_results[i] for i in result_indices]` (an out-of-range index would
raise `IndexError`). -/
def rerankRun (attempts : ℕ → RerankOutcome) (search_results : List String) :
    List REvent × Except String (List String) :=
  let r := rerankAttempts attempts 0 5
  let events := REvent.delay 6 :: r.1
  match r.2 with
  | .error e => (events, .error e)
  | .ok idx =>
    if idx.all (fun i => decide (i < search_results.length)) then
      (events, .ok (idx.map (fun i => search_results.getD i (""))))
    else (events, .error ("IndexError: list index out of range"))

structure SearchRun where
  requested : ℕ
  events : List REvent
  result : Except String (List String)

/-- `Retriever.search`: fetch `top_k * 3` candidates from the datastore
(an oracle from requested count to passages), then rerank.  `requested`
records the `top_k` argument passed to `datastore.search`. -/
def searchRun (datastore : ℕ → List String) (attempts : ℕ → RerankOutcome)
    (top_k : ℕ) : SearchRun :=
  let search_results := datastore (top_k * 3)
  let r := rerankRun attempts search_results
  ⟨top_k * 3, r.1, r.2⟩

/-- `RAGPipeline.process_query`: retrieve (an oracle that may fail, e.g. with
the rerank rate-limit error), generate (an oracle), then apply
`ethical_guardrails` to the generated response. -/
def process_query (retrieve : String → Except String (List String))
    (generate : String → List String → String) (query : String) : Except String String :=
  match retrieve query with
  | .error e => .error e
  | .ok search_results => .ok (ethical_guardrails (generate query search_results))

/-- Count of rerank calls in a `Retriever._rerank` event trace. -/
def callCount (events : List REvent) : ℕ :=
  (events.filter (fun e => match e with | .rerankCall _ => true | _ => false)).length

/-- Fixture for claim C1: response with one context token and ten repeats of
a token absent from the context. -/
def c1resp : String := "a x x x x x x x x x x"

def c1ctx : List String := ["a"]

/-- Fixtures for claim C2: a grounded result (response = expected answer)
and an ungrounded one, in a batch of 80. -/
def groundedResult : EvaluationResult := ⟨"q", "a", "a", true, "r"⟩

def hallucResult : EvaluationResult := ⟨"q", "b", "c", false, "r"⟩

def batch80 : List EvaluationResult := List.replicate 79 groundedResult ++ [hallucResult]

/-- Fixture for claim C8: first rerank attempt rate-limited, second
succeeds. -/
def c8attempts : ℕ → RerankOutcome :=
  fun i => if i = 0 then .tooMany else .success []

/-- Proof infrastructure for `ratio s s = 1`: the run length computed by the
`j2len` dynamic programming of `find_longest_match` on the pair `(s, s)`
over the full ranges — the value `newj2len[j]` takes in row `i` when `j`
is scanned, and 0 otherwise. -/
def runLen (s : List Char) : ℕ → ℕ → ℕ
  | 0, j => if (b2j s (s.getD 0 (' '))).contains j then 1 else 0
  | i + 1, j =>
    if (b2j s (s.getD (i + 1) (' '))).contains j then
      (if j = 0 then 0 else runLen s i (j - 1)) + 1
    else 0

/-- Proof infrastructure: `prev` is the `j2len` row produced by processing
rows `0 .. i-1` (the zero function before the first row). -/
def PrevOk (s : List Char) (i : ℕ) (prev : ℕ → ℕ) : Prop :=
  ∀ j, prev j = match i with | 0 => 0 | i2 + 1 => runLen s i2 j

/-- Proof infrastructure: the best block tracked by the `j2len` phase on
`(s, s)` is on the diagonal, stays inside the sequence, and dominates every
run of the fully processed rows. -/
def BestDiag (s : List Char) (i : ℕ) (best : ℕ × ℕ × ℕ) : Prop :=
  best.1 = best.2.1 ∧ best.1 + best.2.2 ≤ s.length ∧
  ∀ i2 j, i2 < i → j < s.length → runLen s i2 j ≤ best.2.2

/-- Proof infrastructure: invariant of the inner (per-row) fold of the
`j2len` phase on `(s, s)`, after the prefix `l1` of the row list has been
processed. -/
def InnerInv (s : List Char) (i : ℕ) (l1 : List ℕ) (st : (ℕ → ℕ) × ℕ × ℕ × ℕ) : Prop :=
  (∀ j, st.1 j = if j ∈ l1 then runLen s i j else 0) ∧
  BestDiag s i st.2 ∧
  ∀ j ∈ l1, runLen s i j ≤ st.2.2.2

/-- Proof infrastructure: invariant of the row fold of the `j2len` phase on
`(s, s)` after `i` full rows. -/
def RowInv (s : List Char) (i : ℕ) (st : (ℕ → ℕ) × ℕ × ℕ × ℕ) : Prop :=
  PrevOk s i st.1 ∧ BestDiag s i st.2

theorem rne_le (q : ℚ) : (rne q : ℚ) ≤ q + 1/2 := by
  unfold rne
  have h0 := Int.floor_le q
  have h1 := Int.lt_floor_add_one q
  split
  · linarith
  · split
    · push_cast
      linarith
    · split <;> push_cast <;> linarith

theorem le_rne (q : ℚ) : q - 1/2 ≤ (rne q : ℚ) := by
  unfold rne
  have h0 := Int.floor_le q
  have h1 := Int.lt_floor_add_one q
  split
  · linarith
  · split
    · push_cast
      linarith
    · split <;> push_cast <;> linarith

theorem rne_intCast (n : ℤ) : rne (n : ℚ) = n := by
  unfold rne
  rw [Int.floor_intCast]
  simp

theorem rne_nonneg {q : ℚ} (h : 0 ≤ q) : 0 ≤ rne q := by
  unfold rne
  have h0 : (0:ℤ) ≤ ⌊q⌋ := Int.floor_nonneg.mpr h
  split
  · exact h0
  · split
    · omega
    · split <;> omega

theorem rne_le_of_le {q : ℚ} {n : ℤ} (h : q ≤ n) : rne q ≤ n := by
  have hf : ⌊q⌋ ≤ n := by
    have := Int.floor_mono h
    rwa [Int.floor_intCast] at this
  rcases lt_or_eq_of_le hf with hlt | heq
  · unfold rne
    split
    · omega
    · split
      · omega
      · split <;> omega
  · have hq : q = (n : ℚ) := le_antisymm h (by rw [← heq]; exact Int.floor_le q)
    rw [hq, rne_intCast]

theorem rne_pos_of_ge_one {q : ℚ} (h : 1 ≤ q) : 1 ≤ rne q := by
  have h1 : (1:ℤ) ≤ ⌊q⌋ := by exact_mod_cast Int.le_floor.mpr (by exact_mod_cast h)
  unfold rne
  split
  · exact h1
  · split
    · omega
    · split <;> omega

theorem two_zpow_pos (n : ℤ) : (0:ℚ) < (2:ℚ) ^ n := zpow_pos (by norm_num) n

theorem natLog2F_eq : ∀ fuel n, n ≤ fuel → natLog2F fuel n = Nat.log 2 n := by
  intro fuel
  induction fuel with
  | zero =>
    intro n hn
    interval_cases n
    rw [Nat.log_zero_right]
    rfl
  | succ f ih =>
    intro n hn
    unfold natLog2F
    by_cases h1 : n ≤ 1
    · rw [if_pos h1]
      interval_cases n
      · rw [Nat.log_zero_right]
      · rw [Nat.log_one_right]
    · rw [if_neg h1]
      have h2 : 2 ≤ n := by omega
      rw [ih (n / 2) (by omega)]
      rw [Nat.log_of_one_lt_of_le (by norm_num) h2]

theorem natClog2F_eq : ∀ fuel n, n ≤ fuel → natClog2F fuel n = Nat.clog 2 n := by
  intro fuel
  induction fuel with
  | zero =>
    intro n hn
    interval_cases n
    rw [Nat.clog_of_right_le_one (by norm_num)]
    rfl
  | succ f ih =>
    intro n hn
    unfold natClog2F
    by_cases h1 : n ≤ 1
    · rw [if_pos h1, Nat.clog_of_right_le_one h1]
    · rw [if_neg h1]
      have h2 : 2 ≤ n := by omega
      rw [ih ((n + 1) / 2) (by omega)]
      rw [Nat.clog_of_two_le (by norm_num) h2]
      norm_num

theorem ratLog2_eq (q : ℚ) : ratLog2 q = Int.log 2 q := by
  unfold ratLog2 Int.log
  split
  · rw [natLog2F_eq _ _ le_rfl]
  · rw [natClog2F_eq _ _ le_rfl]

theorem flPos_le {q : ℚ} (hq : 0 < q) : flPos q ≤ q + q * (2:ℚ) ^ (-53 : ℤ) := by
  unfold flPos
  simp only [ratLog2_eq]
  set e := Int.log 2 q with he
  have h1 : (2:ℚ) ^ e ≤ q := Int.zpow_log_le_self (by norm_num) hq
  have hr := rne_le (q * (2:ℚ) ^ ((52:ℤ) - e))
  have hp : (0:ℚ) < (2:ℚ) ^ (e - 52) := two_zpow_pos _
  have key := mul_le_mul_of_nonneg_right hr (le_of_lt hp)
  have hmul : (2:ℚ) ^ ((52:ℤ) - e) * (2:ℚ) ^ (e - 52) = 1 := by
    rw [← zpow_add₀ (by norm_num : (2:ℚ) ≠ 0)]
    norm_num
  have hq2 : q * (2:ℚ) ^ ((52:ℤ) - e) * (2:ℚ) ^ (e - 52) = q := by
    rw [mul_assoc, hmul, mul_one]
  have hhalf : (1/2 : ℚ) * (2:ℚ) ^ (e - 52) = (2:ℚ) ^ e * (2:ℚ) ^ (-53 : ℤ) := by
    rw [← zpow_add₀ (by norm_num : (2:ℚ) ≠ 0)]
    have : (1/2 : ℚ) = (2:ℚ) ^ (-1 : ℤ) := by norm_num
    rw [this, ← zpow_add₀ (by norm_num : (2:ℚ) ≠ 0)]
    ring_nf
  have hbound : (2:ℚ) ^ e * (2:ℚ) ^ (-53 : ℤ) ≤ q * (2:ℚ) ^ (-53 : ℤ) :=
    mul_le_mul_of_nonneg_right h1 (le_of_lt (two_zpow_pos _))
  calc (rne (q * (2:ℚ) ^ ((52:ℤ) - e)) : ℚ) * (2:ℚ) ^ (e - 52)
      ≤ (q * (2:ℚ) ^ ((52:ℤ) - e) + 1/2) * (2:ℚ) ^ (e - 52) := key
    _ = q + (1/2 : ℚ) * (2:ℚ) ^ (e - 52) := by rw [add_mul, hq2]
    _ = q + (2:ℚ) ^ e * (2:ℚ) ^ (-53 : ℤ) := by rw [hhalf]
    _ ≤ q + q * (2:ℚ) ^ (-53 : ℤ) := by linarith

theorem le_flPos {q : ℚ} (hq : 0 < q) : q - q * (2:ℚ) ^ (-53 : ℤ) ≤ flPos q := by
  unfold flPos
  simp only [ratLog2_eq]
  set e := Int.log 2 q with he
  have h1 : (2:ℚ) ^ e ≤ q := Int.zpow_log_le_self (by norm_num) hq
  have hr := le_rne (q * (2:ℚ) ^ ((52:ℤ) - e))
  have hp : (0:ℚ) < (2:ℚ) ^ (e - 52) := two_zpow_pos _
  have key := mul_le_mul_of_nonneg_right hr (le_of_lt hp)
  have hmul : (2:ℚ) ^ ((52:ℤ) - e) * (2:ℚ) ^ (e - 52) = 1 := by
    rw [← zpow_add₀ (by norm_num : (2:ℚ) ≠ 0)]
    norm_num
  have hq2 : q * (2:ℚ) ^ ((52:ℤ) - e) * (2:ℚ) ^ (e - 52) = q := by
    rw [mul_assoc, hmul, mul_one]
  have hhalf : (1/2 : ℚ) * (2:ℚ) ^ (e - 52) = (2:ℚ) ^ e * (2:ℚ) ^ (-53 : ℤ) := by
    rw [← zpow_add₀ (by norm_num : (2:ℚ) ≠ 0)]
    have : (1/2 : ℚ) = (2:ℚ) ^ (-1 : ℤ) := by norm_num
    rw [this, ← zpow_add₀ (by norm_num : (2:ℚ) ≠ 0)]
    ring_nf
  have hbound : (2:ℚ) ^ e * (2:ℚ) ^ (-53 : ℤ) ≤ q * (2:ℚ) ^ (-53 : ℤ) :=
    mul_le_mul_of_nonneg_right h1 (le_of_lt (two_zpow_pos _))
  calc q - q * (2:ℚ) ^ (-53 : ℤ)
      ≤ q - (2:ℚ) ^ e * (2:ℚ) ^ (-53 : ℤ) := by linarith
    _ = (q * (2:ℚ) ^ ((52:ℤ) - e) - 1/2) * (2:ℚ) ^ (e - 52) := by
        rw [sub_mul, hq2, hhalf]
    _ ≤ (rne (q * (2:ℚ) ^ ((52:ℤ) - e)) : ℚ) * (2:ℚ) ^ (e - 52) := key

theorem flPos_pos {q : ℚ} (hq : 0 < q) : 0 < flPos q := by
  have h := le_flPos hq
  have : q * (2:ℚ) ^ (-53 : ℤ) < q := by
    have h2 : (2:ℚ) ^ (-53 : ℤ) < 1 := by norm_num
    nlinarith
  linarith

theorem fl_pos {q : ℚ} (hq : 0 < q) : 0 < fl q := by
  unfold fl
  rw [if_pos hq]
  exact flPos_pos hq

theorem fl_nonneg {q : ℚ} (hq : 0 ≤ q) : 0 ≤ fl q := by
  rcases lt_or_eq_of_le hq with h | h
  · exact le_of_lt (fl_pos h)
  · unfold fl
    rw [← h]
    norm_num

theorem fl_le {q : ℚ} (hq : 0 < q) : fl q ≤ q + q * (2:ℚ) ^ (-53 : ℤ) := by
  unfold fl
  rw [if_pos hq]
  exact flPos_le hq

theorem le_fl {q : ℚ} (hq : 0 < q) : q - q * (2:ℚ) ^ (-53 : ℤ) ≤ fl q := by
  unfold fl
  rw [if_pos hq]
  exact le_flPos hq

theorem logDet {q : ℚ} {k : ℤ} (h1 : (2:ℚ)^k ≤ q) (h2 : q < (2:ℚ)^(k+1)) :
    Int.log 2 q = k := by
  have hq : 0 < q := lt_of_lt_of_le (two_zpow_pos k) h1
  have le1 : k ≤ Int.log 2 q := (Int.zpow_le_iff_le_log (by norm_num) hq).mp h1
  have lt2 : Int.log 2 q < k + 1 := (Int.lt_zpow_iff_log_lt (by norm_num) hq).mp h2
  omega

theorem sig_lb {q : ℚ} (hq : 0 < q) :
    (2:ℚ)^(52:ℤ) ≤ q * (2:ℚ)^((52:ℤ) - Int.log 2 q) := by
  have h1 : (2:ℚ) ^ Int.log 2 q ≤ q := Int.zpow_log_le_self (by norm_num) hq
  have he : Int.log 2 q + ((52:ℤ) - Int.log 2 q) = 52 := by ring
  calc (2:ℚ)^(52:ℤ) = (2:ℚ)^(Int.log 2 q) * (2:ℚ)^((52:ℤ) - Int.log 2 q) := by
        rw [← zpow_add₀ (by norm_num : (2:ℚ) ≠ 0), he]
    _ ≤ q * (2:ℚ)^((52:ℤ) - Int.log 2 q) :=
        mul_le_mul_of_nonneg_right h1 (two_zpow_pos _).le

theorem sig_ub {q : ℚ} (_hq : 0 < q) :
    q * (2:ℚ)^((52:ℤ) - Int.log 2 q) < (2:ℚ)^(53:ℤ) := by
  have h2 : q < (2:ℚ) ^ (Int.log 2 q + 1) := Int.lt_zpow_succ_log_self (by norm_num) q
  have he : Int.log 2 q + 1 + ((52:ℤ) - Int.log 2 q) = 53 := by ring
  calc q * (2:ℚ)^((52:ℤ) - Int.log 2 q)
      < (2:ℚ)^(Int.log 2 q + 1) * (2:ℚ)^((52:ℤ) - Int.log 2 q) :=
        mul_lt_mul_of_pos_right h2 (two_zpow_pos _)
    _ = (2:ℚ)^(53:ℤ) := by rw [← zpow_add₀ (by norm_num : (2:ℚ) ≠ 0), he]

theorem fl_fix {m z : ℤ} (h1 : (2:ℚ)^(52:ℤ) ≤ (m:ℚ)) (h2 : (m:ℚ) ≤ (2:ℚ)^(53:ℤ)) :
    fl ((m:ℚ) * (2:ℚ)^z) = (m:ℚ) * (2:ℚ)^z := by
  have hm : (0:ℚ) < (m:ℚ) := lt_of_lt_of_le (two_zpow_pos 52) h1
  have hq : (0:ℚ) < (m:ℚ) * (2:ℚ)^z := mul_pos hm (two_zpow_pos z)
  unfold fl
  rw [if_pos hq]
  unfold flPos
  simp only [ratLog2_eq]
  rcases lt_or_eq_of_le h2 with hlt | heq
  · have hlog : Int.log 2 ((m:ℚ) * (2:ℚ)^z) = z + 52 := by
      apply logDet
      · have he : (52:ℤ) + z = z + 52 := by ring
        calc (2:ℚ)^(z+52) = (2:ℚ)^(52:ℤ) * (2:ℚ)^z := by
              rw [← zpow_add₀ (by norm_num : (2:ℚ) ≠ 0), he]
          _ ≤ (m:ℚ) * (2:ℚ)^z := mul_le_mul_of_nonneg_right h1 (two_zpow_pos _).le
      · have he : (53:ℤ) + z = z + 52 + 1 := by ring
        calc (m:ℚ) * (2:ℚ)^z < (2:ℚ)^(53:ℤ) * (2:ℚ)^z :=
              mul_lt_mul_of_pos_right hlt (two_zpow_pos _)
          _ = (2:ℚ)^(z + 52 + 1) := by
              rw [← zpow_add₀ (by norm_num : (2:ℚ) ≠ 0), he]
    rw [hlog]
    have he2 : (52:ℤ) - (z + 52) = -z := by ring
    have he3 : z + 52 - 52 = z := by ring
    rw [he2, he3]
    have hx : (m:ℚ) * (2:ℚ)^z * (2:ℚ)^(-z : ℤ) = (m:ℚ) := by
      rw [mul_assoc, ← zpow_add₀ (by norm_num : (2:ℚ) ≠ 0)]
      simp
    rw [hx, rne_intCast]
  · have hq2 : (m:ℚ) * (2:ℚ)^z = (2:ℚ)^(z + 53) := by
      rw [heq, ← zpow_add₀ (by norm_num : (2:ℚ) ≠ 0)]
      congr 1
      ring
    have hlog : Int.log 2 ((2:ℚ)^(z+53)) = z + 53 := by
      apply logDet
      · exact le_refl _
      · have hp := two_zpow_pos (z + 53)
        have hd : (2:ℚ)^(z + 53 + 1) = 2 * (2:ℚ)^(z+53) := by
          rw [zpow_add₀ (by norm_num : (2:ℚ) ≠ 0)]
          ring
        rw [hd]
        linarith
    rw [hq2, hlog]
    have he2 : (52:ℤ) - (z + 53) = -(z + 1) := by ring
    have he3 : z + 53 - 52 = z + 1 := by ring
    rw [he2, he3]
    have hx : (2:ℚ)^(z + 53) * (2:ℚ)^(-(z+1) : ℤ) = ((2^52 : ℤ) : ℚ) := by
      rw [← zpow_add₀ (by norm_num : (2:ℚ) ≠ 0)]
      have he4 : z + 53 + -(z + 1) = 52 := by ring
      rw [he4]
      norm_num
    rw [hx, rne_intCast]
    have he5 : ((2^52 : ℤ) : ℚ) = (2:ℚ)^(52:ℤ) := by norm_num
    rw [he5, ← zpow_add₀ (by norm_num : (2:ℚ) ≠ 0)]
    congr 1
    ring

theorem fl_one : fl 1 = 1 := by
  have h := fl_fix (m := 2^52) (z := -52) (by norm_num) (by norm_num)
  have he : ((2^52 : ℤ) : ℚ) * (2:ℚ)^(-52 : ℤ) = 1 := by norm_num
  rw [he] at h
  exact h

theorem fl_le_one {q : ℚ} (h : q ≤ 1) : fl q ≤ 1 := by
  by_cases hq : 0 < q
  · rcases lt_or_eq_of_le h with hlt | heq
    · unfold fl
      rw [if_pos hq]
      unfold flPos
      simp only [ratLog2_eq]
      have hub := sig_ub hq
      have hrle : rne (q * (2:ℚ)^((52:ℤ) - Int.log 2 q)) ≤ 2^53 := by
        apply rne_le_of_le
        calc q * (2:ℚ)^((52:ℤ) - Int.log 2 q) ≤ (2:ℚ)^(53:ℤ) := hub.le
          _ = ((2^53 : ℤ) : ℚ) := by norm_num
      have hneg : Int.log 2 q + 1 ≤ 0 := by
        have : Int.log 2 q < 0 := by
          have := (Int.lt_zpow_iff_log_lt (b := 2) (by norm_num) hq (x := 0)).mp
            (by simpa using hlt)
          omega
        omega
      have hcast : ((rne (q * (2:ℚ)^((52:ℤ) - Int.log 2 q)) : ℤ) : ℚ) ≤ (2:ℚ)^(53:ℤ) := by
        calc ((rne (q * (2:ℚ)^((52:ℤ) - Int.log 2 q)) : ℤ) : ℚ) ≤ ((2^53 : ℤ) : ℚ) := by
              exact_mod_cast hrle
          _ = (2:ℚ)^(53:ℤ) := by norm_num
      calc (rne (q * (2:ℚ)^((52:ℤ) - Int.log 2 q)) : ℚ) * (2:ℚ)^(Int.log 2 q - 52)
          ≤ (2:ℚ)^(53:ℤ) * (2:ℚ)^(Int.log 2 q - 52) :=
            mul_le_mul_of_nonneg_right hcast (two_zpow_pos _).le
        _ = (2:ℚ)^(Int.log 2 q + 1) := by
            rw [← zpow_add₀ (by norm_num : (2:ℚ) ≠ 0)]
            congr 1
            ring
        _ ≤ (2:ℚ)^(0:ℤ) := zpow_le_zpow_right₀ (by norm_num) hneg
        _ = 1 := zpow_zero 2
    · rw [heq, fl_one]
  · unfold fl
    rw [if_neg hq]
    split
    · have hp := flPos_pos (q := -q) (by linarith)
      linarith
    · norm_num

theorem rne_sig_lb {q : ℚ} (hq : 0 < q) :
    2^52 ≤ rne (q * (2:ℚ)^((52:ℤ) - Int.log 2 q)) := by
  have hlb := sig_lb hq
  by_contra hc
  push_neg at hc
  have hle : rne (q * (2:ℚ)^((52:ℤ) - Int.log 2 q)) ≤ 2^52 - 1 := by omega
  have h1 : ((rne (q * (2:ℚ)^((52:ℤ) - Int.log 2 q)) : ℤ) : ℚ) ≤ ((2^52 - 1 : ℤ) : ℚ) := by
    exact_mod_cast hle
  have h2 := le_rne (q * (2:ℚ)^((52:ℤ) - Int.log 2 q))
  have h3 : ((2^52 - 1 : ℤ) : ℚ) = (2:ℚ)^(52:ℤ) - 1 := by norm_num
  rw [h3] at h1
  linarith

theorem rne_sig_ub {q : ℚ} (hq : 0 < q) :
    rne (q * (2:ℚ)^((52:ℤ) - Int.log 2 q)) ≤ 2^53 := by
  apply rne_le_of_le
  calc q * (2:ℚ)^((52:ℤ) - Int.log 2 q) ≤ (2:ℚ)^(53:ℤ) := (sig_ub hq).le
    _ = ((2^53 : ℤ) : ℚ) := by norm_num

theorem fl_fl_pos {q : ℚ} (hq : 0 < q) : fl (fl q) = fl q := by
  have hrw : fl q = ((rne (q * (2:ℚ)^((52:ℤ) - Int.log 2 q)) : ℤ) : ℚ)
      * (2:ℚ)^(Int.log 2 q - 52) := by
    unfold fl
    rw [if_pos hq]
    unfold flPos
    simp only [ratLog2_eq]
  rw [hrw]
  apply fl_fix
  · have := rne_sig_lb hq
    have h : ((2^52 : ℤ) : ℚ) ≤ ((rne (q * (2:ℚ)^((52:ℤ) - Int.log 2 q)) : ℤ) : ℚ) := by
      exact_mod_cast this
    calc (2:ℚ)^(52:ℤ) = ((2^52 : ℤ) : ℚ) := by norm_num
      _ ≤ _ := h
  · have := rne_sig_ub hq
    have h : ((rne (q * (2:ℚ)^((52:ℤ) - Int.log 2 q)) : ℤ) : ℚ) ≤ ((2^53 : ℤ) : ℚ) := by
      exact_mod_cast this
    calc ((rne (q * (2:ℚ)^((52:ℤ) - Int.log 2 q)) : ℤ) : ℚ) ≤ ((2^53 : ℤ) : ℚ) := h
      _ = (2:ℚ)^(53:ℤ) := by norm_num

theorem log_two_mul {q : ℚ} (hq : 0 < q) : Int.log 2 (2*q) = Int.log 2 q + 1 := by
  apply logDet
  · have h1 : (2:ℚ) ^ Int.log 2 q ≤ q := Int.zpow_log_le_self (by norm_num) hq
    calc (2:ℚ)^(Int.log 2 q + 1) = 2 * (2:ℚ)^(Int.log 2 q) := by
          rw [zpow_add₀ (by norm_num : (2:ℚ) ≠ 0)]
          ring
      _ ≤ 2 * q := by linarith
  · have h2 : q < (2:ℚ) ^ (Int.log 2 q + 1) := Int.lt_zpow_succ_log_self (by norm_num) q
    calc 2 * q < 2 * (2:ℚ)^(Int.log 2 q + 1) := by linarith
      _ = (2:ℚ)^(Int.log 2 q + 1 + 1) := by
          rw [zpow_add₀ (by norm_num : (2:ℚ) ≠ 0) (Int.log 2 q + 1) 1]
          ring

theorem fl_two_mul {q : ℚ} (hq : 0 < q) : fl (2 * q) = 2 * fl q := by
  have h2q : 0 < 2 * q := by linarith
  unfold fl
  rw [if_pos h2q, if_pos hq]
  unfold flPos
  simp only [ratLog2_eq]
  rw [log_two_mul hq]
  have hx : 2 * q * (2:ℚ)^((52:ℤ) - (Int.log 2 q + 1)) = q * (2:ℚ)^((52:ℤ) - Int.log 2 q) := by
    have he : (52:ℤ) - Int.log 2 q = 1 + ((52:ℤ) - (Int.log 2 q + 1)) := by ring
    rw [he, zpow_add₀ (by norm_num : (2:ℚ) ≠ 0), zpow_one]
    ring
  rw [hx]
  have he2 : Int.log 2 q + 1 - 52 = 1 + (Int.log 2 q - 52) := by ring
  rw [he2, zpow_add₀ (by norm_num : (2:ℚ) ≠ 0), zpow_one]
  ring

theorem pyRound3_nonneg {x : ℚ} (h : 0 ≤ x) : 0 ≤ pyRound3 x := by
  unfold pyRound3
  apply fl_nonneg
  have h1 : (0:ℤ) ≤ rne (x * 1000) := rne_nonneg (by linarith)
  have h2 : ((0:ℤ):ℚ) ≤ ((rne (x * 1000) : ℤ) : ℚ) := by exact_mod_cast h1
  simp at h2
  positivity

theorem pyRound3_le_one {x : ℚ} (h : x ≤ 1) : pyRound3 x ≤ 1 := by
  unfold pyRound3
  apply fl_le_one
  have h1 : rne (x * 1000) ≤ 1000 := rne_le_of_le (by push_cast; linarith)
  have h2 : ((rne (x * 1000) : ℤ) : ℚ) ≤ ((1000:ℤ):ℚ) := by exact_mod_cast h1
  push_cast at h2
  linarith

theorem rne_complement_1000 (x : ℚ) : rne x + rne (1000 - x) = 1000 := by
  have hfl : ⌊x⌋ ≤ x := Int.floor_le x
  have hfl2 : x < ⌊x⌋ + 1 := Int.lt_floor_add_one x
  rcases eq_or_lt_of_le hfl with heq | hlt
  · have h1 : rne x = ⌊x⌋ := by
      conv_lhs => rw [← heq]
      exact rne_intCast ⌊x⌋
    have h2 : (1000 : ℚ) - x = ((1000 - ⌊x⌋ : ℤ) : ℚ) := by
      conv_lhs => rw [← heq]
      push_cast
      ring
    have h3 : rne (1000 - x) = 1000 - ⌊x⌋ := by rw [h2, rne_intCast]
    omega
  · have hfloor : ⌊(1000:ℚ) - x⌋ = 999 - ⌊x⌋ := by
      apply Int.floor_eq_iff.mpr
      constructor
      · push_cast
        linarith
      · push_cast
        linarith
    have hr : x - ⌊x⌋ + ((1000 - x) - ⌊(1000:ℚ) - x⌋) = 1 := by
      rw [hfloor]
      push_cast
      ring
    unfold rne
    rw [hfloor]
    rcases lt_trichotomy (x - ⌊x⌋) (1/2 : ℚ) with hc | hc | hc
    · rw [if_pos hc]
      have hc2 : ¬((1000:ℚ) - x - (999 - ⌊x⌋ : ℤ) < 1/2) := by push_cast; linarith
      rw [if_neg hc2]
      have hc3 : (1/2 : ℚ) < (1000:ℚ) - x - ((999 - ⌊x⌋ : ℤ) : ℚ) := by push_cast; linarith
      rw [if_pos hc3]
      omega
    · rw [if_neg (by linarith), if_neg (by linarith)]
      have hc2 : ¬((1000:ℚ) - x - ((999 - ⌊x⌋ : ℤ) : ℚ) < 1/2) := by push_cast; linarith
      rw [if_neg hc2]
      have hc3 : ¬((1/2:ℚ) < (1000:ℚ) - x - ((999 - ⌊x⌋ : ℤ) : ℚ)) := by push_cast; linarith
      rw [if_neg hc3]
      split
      · split
        · omega
        · omega
      · split
        · omega
        · omega
    · rw [if_neg (by linarith), if_pos hc]
      have hc2 : (1000:ℚ) - x - ((999 - ⌊x⌋ : ℤ) : ℚ) < 1/2 := by push_cast; linarith
      rw [if_pos hc2]
      omega

theorem ethical_guardrails_cases (s : String) :
    ethical_guardrails s = investmentRefusal ∨ ethical_guardrails s = predictionRefusal ∨
      ethical_guardrails s = s ++ sourceSuffix := by
  unfold ethical_guardrails
  by_cases h1 : (investmentTerms.any fun x => strContains (pyLower s) x) = true
  · left
    simp [h1]
  · by_cases h2 : (predictionTerms.any fun x => strContains (pyLower s) x) = true
    · right
      left
      simp [h1, h2]
    · right
      right
      simp [h1, h2]

/-- C3: `ethical_guardrails` is a pure three-case function on the lower-cased
input: any investment-action keyword yields exactly the fixed
investment-refusal message (taking precedence over the prediction check);
otherwise any prediction keyword yields exactly the fixed prediction-refusal
message; otherwise the original response is returned with the exact
source-attribution suffix appended. -/
theorem C3_guardrails (r : String) :
    ethical_guardrails r =
      (if strContains (pyLower r) ("comprar") || strContains (pyLower r) ("vender") ||
          strContains (pyLower r) ("inversión") || strContains (pyLower r) ("rentabilidad futura")
       then "⚠️ No se permiten recomendaciones de inversión ni proyecciones financieras."
       else if strContains (pyLower r) ("predicción") || strContains (pyLower r) ("proyección") ||
          strContains (pyLower r) ("estimado")
       then "⚠️ El sistema no realiza estimaciones ni predicciones. Solo resume información factual."
       else r ++ "\n\n📘 Fuente: Documentos IFRS públicos o reportes oficiales.") := by
  unfold ethical_guardrails investmentTerms predictionTerms
  simp only [List.any_cons, List.any_nil, Bool.or_false, Bool.or_assoc]
  rfl

/-- C10: on every successful path, `process_query` returns exactly the
guardrail filter applied to the generated response, which is one of the two
fixed refusal messages or the generated response with the fixed
source-attribution suffix; a raw unfiltered generator response is never
returned. -/
theorem C10_guardrail_always (retrieve : String → Except String (List String))
    (generate : String → List String → String) (query : String) (rs : List String)
    (h : retrieve query = .ok rs) :
    process_query retrieve generate query = .ok (ethical_guardrails (generate query rs)) ∧
      (ethical_guardrails (generate query rs) = investmentRefusal ∨
       ethical_guardrails (generate query rs) = predictionRefusal ∨
       ethical_guardrails (generate query rs) = generate query rs ++ sourceSuffix) := by
  constructor
  · unfold process_query
    rw [h]
  · exact ethical_guardrails_cases _

theorem C10_guardrail_always_witness :
    process_query (fun _ => .ok []) (fun _ _ => "dato") ("q") =
      .ok (ethical_guardrails ("dato")) ∧
      (ethical_guardrails ("dato") = investmentRefusal ∨
       ethical_guardrails ("dato") = predictionRefusal ∨
       ethical_guardrails ("dato") = "dato" ++ sourceSuffix) :=
  C10_guardrail_always (fun _ => .ok []) (fun _ _ => "dato") ("q") [] rfl

/-- C1 (amended): `is_grounded_in_context` lower-cases both sides, tokenizes
on whitespace, and is true iff the binary64 ratio of (distinct response
tokens also present in the concatenated context tokens) to the TOTAL
response token count — with repetitions, minimum denominator 1 — is
strictly greater than the double `0.15`.  (The spec's "distinct response
token count" denominator is wrong; see the counterexample.) -/
theorem C1_grounding_denominator (response : String) (context_list : List String) :
    is_grounded_in_context response context_list = true ↔
      fl (15/100) < pyDiv
        (((splitWS (pyLower response)).dedup.inter
          (splitWS (pyLower (String.intercalate (" ") context_list)))).length)
        (max 1 (splitWS (pyLower response)).length) :=
  decide_eq_true_iff

/-- C1 counterexample: for the response `"a x x x x x x x x x x"` with
context `["a"]`, the distinct-denominator ratio of the claim is `1/2 > 0.15`
(grounded), but the code divides by the total token count `11`, giving
`1/11 ≤ 0.15`: not grounded. -/
theorem C1_counterexample :
    is_grounded_in_context c1resp c1ctx = false ∧ spec_grounded c1resp c1ctx = true := by
  decide

theorem pyDiv_nonneg (a b : ℕ) : 0 ≤ pyDiv a b := by
  unfold pyDiv
  apply fl_nonneg
  positivity

theorem pyDiv_le_one {a b : ℕ} (h : a ≤ b) : pyDiv a b ≤ 1 := by
  unfold pyDiv
  apply fl_le_one
  rcases Nat.eq_zero_or_pos b with hb | hb
  · subst hb
    have ha : a = 0 := by omega
    subst ha
    norm_num
  · rw [div_le_one (by exact_mod_cast hb)]
    exact_mod_cast h

theorem length_filter_not {α : Type} (p : α → Bool) (l : List α) :
    (l.filter (fun a => !(p a))).length = l.length - (l.filter p).length := by
  induction l with
  | nil => rfl
  | cons a t ih =>
    have hle := List.length_filter_le p t
    by_cases h : p a = true
    · simp [List.filter_cons, h, ih]
    · have h2 : p a = false := by
        revert h
        cases p a <;> simp
      simp [List.filter_cons, h2, ih]
      omega

/-- C9: for every batch accepted by `compute_metrics` (exactly the non-empty
ones), all three returned metric values lie in `[0, 1]`; the empty batch
yields the division-by-zero error. -/
theorem C9_metrics_bounds :
    (∀ results m, compute_metrics results = .ok m →
      0 ≤ m.accuracy ∧ m.accuracy ≤ 1 ∧ 0 ≤ m.groundedness ∧ m.groundedness ≤ 1 ∧
      0 ≤ m.hallucination_rate ∧ m.hallucination_rate ≤ 1) ∧
    compute_metrics [] = .error ("ZeroDivisionError: division by zero") := by
  constructor
  · intro results m h
    unfold compute_metrics at h
    by_cases h0 : results.length = 0
    · rw [if_pos h0] at h
      exact absurd h (by simp)
    · rw [if_neg h0] at h
      have hm := (Except.ok.injEq _ _).mp h.symm
      subst hm
      refine ⟨pyRound3_nonneg (pyDiv_nonneg _ _),
        pyRound3_le_one (pyDiv_le_one (List.length_filter_le _ _)),
        pyRound3_nonneg (pyDiv_nonneg _ _),
        pyRound3_le_one (pyDiv_le_one (List.length_filter_le _ _)),
        pyRound3_nonneg (pyDiv_nonneg _ _),
        pyRound3_le_one (pyDiv_le_one (List.length_filter_le _ _))⟩
  · rfl

theorem C9_metrics_bounds_witness :
    0 ≤ (MetricsSummary.mk 1 1 0).accuracy ∧ (MetricsSummary.mk 1 1 0).accuracy ≤ 1 ∧
    0 ≤ (MetricsSummary.mk 1 1 0).groundedness ∧ (MetricsSummary.mk 1 1 0).groundedness ≤ 1 ∧
    0 ≤ (MetricsSummary.mk 1 1 0).hallucination_rate ∧
    (MetricsSummary.mk 1 1 0).hallucination_rate ≤ 1 :=
  C9_metrics_bounds.1 [groundedResult] (MetricsSummary.mk 1 1 0) (by decide)

/-- C2 (amended): for every non-empty batch, `compute_metrics` returns
`accuracy = round3(C/N)`, `groundedness = round3(G/N)` and
`hallucination_rate = round3((N-G)/N)` (binary64 division, CPython
3-decimal rounding), the grounded/hallucinated classifications are
complementary (`H = N - G`), and the two rounded DECIMALS are exact
complements: the ideal 3-decimal roundings of `G/N` and `(N-G)/N` sum to
exactly 1.  (The claim's stronger assertion that the two returned floats
sum to exactly `1.0` fails, because each returned value is the nearest
binary64 to its rounded decimal; see the counterexample.) -/
theorem C2_metrics (results : List EvaluationResult) (h : results ≠ []) :
    compute_metrics results = .ok
      ⟨pyRound3 (pyDiv (results.filter (fun r => r.is_correct)).length results.length),
       pyRound3 (pyDiv (results.filter
         (fun r => is_grounded_in_context r.response [r.expected_answer])).length results.length),
       pyRound3 (pyDiv (results.length - (results.filter
         (fun r => is_grounded_in_context r.response [r.expected_answer])).length)
         results.length)⟩ ∧
    rne (1000 * ((results.filter
        (fun r => is_grounded_in_context r.response [r.expected_answer])).length : ℚ)
        / results.length) +
      rne (1000 * ((results.length - (results.filter
        (fun r => is_grounded_in_context r.response [r.expected_answer])).length : ℕ) : ℚ)
        / results.length) = 1000 := by
  have hn : results.length ≠ 0 := by
    intro h0
    exact h (List.length_eq_zero.mp h0)
  have hG : (results.filter
      (fun r => is_grounded_in_context r.response [r.expected_answer])).length
      ≤ results.length := List.length_filter_le _ _
  constructor
  · unfold compute_metrics
    rw [if_neg hn,
      length_filter_not (fun r => is_grounded_in_context r.response [r.expected_answer]) results]
  · have hNq : ((results.length : ℚ)) ≠ 0 := by exact_mod_cast hn
    have hcast : ((results.length - (results.filter
        (fun r => is_grounded_in_context r.response [r.expected_answer])).length : ℕ) : ℚ)
        = (results.length : ℚ) - ((results.filter
        (fun r => is_grounded_in_context r.response [r.expected_answer])).length : ℚ) := by
      exact Nat.cast_sub hG
    rw [hcast]
    have hsplit : 1000 * ((results.length : ℚ) - ((results.filter
        (fun r => is_grounded_in_context r.response [r.expected_answer])).length : ℚ))
        / results.length
        = 1000 - 1000 * ((results.filter
        (fun r => is_grounded_in_context r.response [r.expected_answer])).length : ℚ)
        / results.length := by
      field_simp
      ring
    rw [hsplit]
    exact rne_complement_1000 _

theorem C2_metrics_witness :
    compute_metrics [groundedResult] = .ok
      ⟨pyRound3 (pyDiv ([groundedResult].filter (fun r => r.is_correct)).length
         [groundedResult].length),
       pyRound3 (pyDiv ([groundedResult].filter
         (fun r => is_grounded_in_context r.response [r.expected_answer])).length
         [groundedResult].length),
       pyRound3 (pyDiv ([groundedResult].length - ([groundedResult].filter
         (fun r => is_grounded_in_context r.response [r.expected_answer])).length)
         [groundedResult].length)⟩ ∧
    rne (1000 * (([groundedResult].filter
        (fun r => is_grounded_in_context r.response [r.expected_answer])).length : ℚ)
        / [groundedResult].length) +
      rne (1000 * (([groundedResult].length - ([groundedResult].filter
        (fun r => is_grounded_in_context r.response [r.expected_answer])).length : ℕ) : ℚ)
        / [groundedResult].length) = 1000 :=
  C2_metrics [groundedResult] (by simp)

/-- C2 counterexample: in a batch of 80 results with 79 grounded and 1 not,
the code returns `groundedness = round(79/80, 3) = 0.988` and
`hallucination_rate = round(1/80, 3) = 0.013` as binary64 values; their sum
is about `1.001`, not `1.0` (each of `0.9875` and `0.0125` sits on a decimal
rounding boundary, and the binary64 representation error pushes both
upward). -/
theorem C2_counterexample :
    batch80.length = 80 ∧
    (batch80.filter
      (fun r => is_grounded_in_context r.response [r.expected_answer])).length = 79 ∧
    (compute_metrics batch80).toOption.map
      (fun m => decide (m.groundedness + m.hallucination_rate = 1)) = some false := by
  decide

/-- C6: when all 5 rerank attempts hit the too-many-requests condition,
`Retriever.search` propagates the fatal unrecoverable rate-limit error
(`RuntimeError` from the `for`-`else`), never a partial or empty result
list; and only the too-many-requests condition is retried — any other
rerank failure propagates immediately after a single call. -/
theorem C6_rate_limit_fatal (attempts attempts2 : ℕ → RerankOutcome)
    (cands cands2 : List String) (m : String)
    (h5 : ∀ i, i < 5 → attempts i = .tooMany)
    (hf : attempts2 0 = .failure m) :
    (rerankRun attempts cands).2 = .error rateLimitFatal ∧
    (rerankRun attempts2 cands2).2 = .error m ∧
    callCount (rerankRun attempts2 cands2).1 = 1 := by
  refine ⟨?_, ?_, ?_⟩
  · unfold rerankRun
    simp only [rerankAttempts, h5 0 (by omega), h5 1 (by omega), h5 2 (by omega),
      h5 3 (by omega), h5 4 (by omega)]
  · unfold rerankRun
    simp only [rerankAttempts, hf]
  · unfold rerankRun callCount
    simp only [rerankAttempts, hf]
    rfl

theorem C6_rate_limit_fatal_witness :
    (rerankRun (fun _ => .tooMany) []).2 = .error rateLimitFatal ∧
    (rerankRun (fun _ => .failure ("boom")) ["x"]).2 = .error ("boom") ∧
    callCount (rerankRun (fun _ => .failure ("boom")) ["x"]).1 = 1 :=
  C6_rate_limit_fatal (fun _ => .tooMany) (fun _ => .failure ("boom")) [] ["x"] ("boom")
    (fun _ _ => rfl) rfl

/-- C7: `Retriever.search` requests exactly `3 × top_k` candidates from the
datastore, and on a successful rerank whose indices are all in range, the
returned list is exactly the reranker's indices mapped back onto the
positions of the original candidate list, in the reranker's order. -/
theorem C7_search_mapping (datastore : ℕ → List String) (attempts : ℕ → RerankOutcome)
    (top_k : ℕ) (idx : List ℕ)
    (hsucc : attempts 0 = .success idx)
    (hvalid : ∀ i ∈ idx, i < (datastore (3 * top_k)).length) :
    (searchRun datastore attempts top_k).requested = 3 * top_k ∧
    (searchRun datastore attempts top_k).result =
      .ok (idx.map (fun i => (datastore (3 * top_k)).getD i (""))) := by
  constructor
  · unfold searchRun
    simp [Nat.mul_comm]
  · unfold searchRun rerankRun
    simp only [rerankAttempts, hsucc, Nat.mul_comm top_k 3]
    rw [if_pos]
    rw [List.all_eq_true]
    intro i hi
    exact decide_eq_true (hvalid i hi)

theorem C7_search_mapping_witness :
    (searchRun (fun _ => ["a", "b", "c"]) (fun _ => .success [2, 0]) 1).requested = 3 * 1 ∧
    (searchRun (fun _ => ["a", "b", "c"]) (fun _ => .success [2, 0]) 1).result =
      .ok ([2, 0].map (fun i => ((fun (_ : ℕ) => ["a", "b", "c"]) (3 * 1)).getD i (""))) :=
  C7_search_mapping (fun _ => ["a", "b", "c"]) (fun _ => .success [2, 0]) 1 [2, 0]
    rfl (by decide)

theorem rerankAttempts_shape (attempts : ℕ → RerankOutcome) :
    ∀ (f i n : ℕ) (idx : List ℕ), f < n → (∀ k, k < f → attempts (i + k) = .tooMany) →
      attempts (i + f) = .success idx →
      rerankAttempts attempts i n =
        ((List.range' i f).flatMap (fun k =>
          [REvent.delay 10, REvent.rerankCall k, REvent.delay (10 * (k + 1))]) ++
          [REvent.delay 10, REvent.rerankCall (i + f)], .ok idx) := by
  intro f
  induction f with
  | zero =>
    intro i n idx hn hfail hsucc
    obtain ⟨n2, rfl⟩ : ∃ n2, n = n2 + 1 := ⟨n - 1, by omega⟩
    unfold rerankAttempts
    rw [show i + 0 = i from rfl] at hsucc
    rw [hsucc]
    simp [List.range']
  | succ f ih =>
    intro i n idx hn hfail hsucc
    obtain ⟨n2, rfl⟩ : ∃ n2, n = n2 + 1 := ⟨n - 1, by omega⟩
    unfold rerankAttempts
    have h0 : attempts i = .tooMany := by
      have := hfail 0 (by omega)
      simpa using this
    rw [h0]
    have hrest := ih (i + 1) n2 idx (by omega)
      (fun k hk => by
        have := hfail (k + 1) (by omega)
        rwa [show i + (k + 1) = i + 1 + k by omega] at this)
      (by rwa [show i + 1 + f = i + (f + 1) by omega])
    rw [hrest]
    rw [List.range'_succ i f 1, List.flatMap_cons]
    simp only [List.append_assoc, List.cons_append, List.nil_append]
    rw [show i + 1 + f = i + (f + 1) by omega]

/-- C8 (amended): in `Retriever._rerank`, up to 5 attempts are made and only
the too-many-requests condition is retried, with a post-failure backoff of
`10 × attempt_number` seconds (attempt numbers starting at 1) and a fixed
10-second pre-request delay before EVERY attempt; the fixed 6-second delay
is applied ONCE per `_rerank` invocation, before the first attempt only —
not before every attempt as the claim states (see the counterexample). -/
theorem C8_delays (attempts : ℕ → RerankOutcome) (cands : List String)
    (f : ℕ) (idx : List ℕ) (hf : f < 5)
    (hfail : ∀ k, k < f → attempts k = .tooMany)
    (hsucc : attempts f = .success idx) :
    (rerankRun attempts cands).1 =
      REvent.delay 6 ::
        ((List.range' 0 f).flatMap (fun k =>
          [REvent.delay 10, REvent.rerankCall k, REvent.delay (10 * (k + 1))]) ++
          [REvent.delay 10, REvent.rerankCall f]) := by
  unfold rerankRun
  rw [rerankAttempts_shape attempts f 0 5 idx hf (by simpa using hfail) (by simpa using hsucc)]
  simp only [Nat.zero_add]
  split <;> rfl

theorem C8_delays_witness :
    (rerankRun c8attempts ["x"]).1 =
      REvent.delay 6 ::
        ((List.range' 0 1).flatMap (fun k =>
          [REvent.delay 10, REvent.rerankCall k, REvent.delay (10 * (k + 1))]) ++
          [REvent.delay 10, REvent.rerankCall 1]) :=
  C8_delays c8attempts ["x"] 1 [] (by omega)
    (fun k hk => by
      have hk0 : k = 0 := by omega
      subst hk0
      rfl)
    rfl

/-- C8 counterexample: with the first attempt rate-limited and the second
successful, the event trace contains two rerank attempts but only ONE
6-second delay (at the very start); so the claimed fixed 6-second pre-call
delay is not applied before every attempt. -/
theorem C8_counterexample :
    (rerankRun c8attempts ["x"]).1 =
      [REvent.delay 6, REvent.delay 10, REvent.rerankCall 0,
       REvent.delay 10, REvent.delay 10, REvent.rerankCall 1] ∧
    callCount (rerankRun c8attempts ["x"]).1 = 2 ∧
    ((rerankRun c8attempts ["x"]).1.count (REvent.delay 6)) = 1 := by
  decide

theorem mem_b2j {s : List Char} {c : Char} {j : ℕ} :
    j ∈ b2j s c ↔ (isPopular s c = false ∧ j < s.length ∧ s.get? j = some c) := by
  unfold b2j
  split
  · rename_i hpop
    simp [hpop]
  · rename_i hpop
    rw [Bool.not_eq_true] at hpop
    simp [List.mem_filter, List.mem_range, hpop, beq_iff_eq]

theorem get?_self {s : List Char} {i : ℕ} (h : i < s.length) :
    s.get? i = some (s.getD i (' ')) := by
  rw [List.getD_eq_getElem?_getD, List.get?_eq_getElem?]
  cases hx : s[i]? with
  | none =>
    rw [List.getElem?_eq_none_iff] at hx
    omega
  | some v => rfl

theorem cnd_lt {s : List Char} {i j : ℕ}
    (h : (b2j s (s.getD i (' '))).contains j = true) : j < s.length := by
  rw [List.contains_iff_exists_mem_beq] at h
  obtain ⟨a, ha, hb⟩ := h
  have : j = a := by
    have := beq_iff_eq.mp hb
    omega
  subst this
  exact (mem_b2j.mp ha).2.1

theorem cnd_diag {s : List Char} {i j : ℕ} (hi : i < s.length)
    (h : (b2j s (s.getD i (' '))).contains j = true) :
    (b2j s (s.getD i (' '))).contains i = true := by
  have hmem : j ∈ b2j s (s.getD i (' ')) := by
    rw [List.contains_iff_exists_mem_beq] at h
    obtain ⟨a, ha, hb⟩ := h
    have : j = a := beq_iff_eq.mp hb
    subst this
    exact ha
  obtain ⟨hpop, _, _⟩ := mem_b2j.mp hmem
  have : i ∈ b2j s (s.getD i (' ')) := mem_b2j.mpr ⟨hpop, hi, get?_self hi⟩
  simpa using this

theorem cnd_symm {s : List Char} {i j : ℕ} (hi : i < s.length) (hj : j < s.length) :
    (b2j s (s.getD i (' '))).contains j = (b2j s (s.getD j (' '))).contains i := by
  have key : ∀ a b : ℕ, a < s.length → b < s.length →
      (b2j s (s.getD a (' '))).contains b = true →
      (b2j s (s.getD b (' '))).contains a = true := by
    intro a b ha hb h
    have hmem : b ∈ b2j s (s.getD a (' ')) := by simpa using h
    obtain ⟨hpop, _, hget⟩ := mem_b2j.mp hmem
    have hchar : s.getD b (' ') = s.getD a (' ') := by
      have h2 := get?_self hb
      rw [h2] at hget
      injection hget
    have : a ∈ b2j s (s.getD b (' ')) := by
      rw [hchar]
      exact mem_b2j.mpr ⟨hpop, ha, get?_self ha⟩
    simpa using this
  by_cases hij : (b2j s (s.getD i (' '))).contains j = true
  · rw [hij, key i j hi hj hij]
  · by_cases hji : (b2j s (s.getD j (' '))).contains i = true
    · exact absurd (key j i hj hi hji) hij
    · rw [Bool.not_eq_true] at hij hji
      rw [hij, hji]

theorem runLen_le_left (s : List Char) : ∀ i j, runLen s i j ≤ i + 1 := by
  intro i
  induction i with
  | zero =>
    intro j
    unfold runLen
    split <;> omega
  | succ i2 ih =>
    intro j
    unfold runLen
    split
    · split
      · omega
      · have := ih (j - 1)
        omega
    · omega

theorem runLen_le_right (s : List Char) : ∀ i j, runLen s i j ≤ j + 1 := by
  intro i
  induction i with
  | zero =>
    intro j
    unfold runLen
    split <;> omega
  | succ i2 ih =>
    intro j
    unfold runLen
    split
    · split
      · omega
      · rename_i hj
        have := ih (j - 1)
        omega
    · omega

theorem runLen_eq_zero {s : List Char} {i j : ℕ}
    (h : ¬ (b2j s (s.getD i (' '))).contains j = true) : runLen s i j = 0 := by
  cases i with
  | zero =>
    unfold runLen
    rw [if_neg h]
  | succ i2 =>
    unfold runLen
    rw [if_neg h]

theorem runLen_le_diag {s : List Char} : ∀ i j, i < s.length → j < s.length →
    runLen s i j ≤ runLen s i i := by
  intro i
  induction i with
  | zero =>
    intro j hi hj
    by_cases h : (b2j s (s.getD 0 (' '))).contains j = true
    · have hd := cnd_diag hi h
      unfold runLen
      rw [if_pos h, if_pos hd]
    · rw [runLen_eq_zero h]
      omega
  | succ i2 ih =>
    intro j hi hj
    by_cases h : (b2j s (s.getD (i2 + 1) (' '))).contains j = true
    · have hd := cnd_diag hi h
      unfold runLen
      rw [if_pos h, if_pos hd]
      simp only [Nat.add_sub_cancel]
      by_cases hj0 : j = 0
      · rw [if_pos hj0]
        simp
      · rw [if_neg hj0]
        have h2 := ih (j - 1) (by omega) (by omega)
        have hne : ¬ (i2 + 1 = 0) := by omega
        rw [if_neg hne]
        omega
    · rw [runLen_eq_zero h]
      omega

theorem runLen_symm {s : List Char} : ∀ i j, i < s.length → j < s.length →
    runLen s i j = runLen s j i := by
  intro i
  induction i with
  | zero =>
    intro j hi hj
    cases j with
    | zero => rfl
    | succ j2 =>
      unfold runLen
      rw [cnd_symm hi hj]
      simp
  | succ i2 ih =>
    intro j hi hj
    cases j with
    | zero =>
      unfold runLen
      rw [cnd_symm hi hj]
      simp
    | succ j2 =>
      unfold runLen
      rw [cnd_symm hi hj]
      have h2 := ih j2 (by omega) (by omega)
      simp [h2]

theorem b2j_sorted (s : List Char) (c : Char) : (b2j s c).Pairwise (· < ·) := by
  unfold b2j
  split
  · exact List.Pairwise.nil
  · exact List.Pairwise.filter _ (List.pairwise_lt_range _)

theorem flmStep_inv {s : List Char} {i : ℕ} (hi : i < s.length)
    {prev : ℕ → ℕ} (hprev : PrevOk s i prev)
    {l1 l2 : List ℕ} {j : ℕ} {st : (ℕ → ℕ) × ℕ × ℕ × ℕ}
    (hJ : b2j s (s.getD i (' ')) = l1 ++ j :: l2)
    (hinv : InnerInv s i l1 st) :
    InnerInv s i (l1 ++ [j]) (flmStep prev i st j) := by
  obtain ⟨g, bi, bj0, bk⟩ := st
  obtain ⟨hg, ⟨hdiag, hbound, hmax⟩, hl1⟩ := hinv
  unfold PrevOk at hprev
  dsimp only at hg hdiag hbound hmax hl1
  have hjJ : j ∈ b2j s (s.getD i (' ')) := by
    rw [hJ]
    exact List.mem_append_right _ (List.mem_cons_self _ _)
  have hcnd : (b2j s (s.getD i (' '))).contains j = true := by simpa using hjJ
  have hjn : j < s.length := cnd_lt hcnd
  have hk : (if j = 0 then 0 else prev (j - 1)) + 1 = runLen s i j := by
    cases i with
    | zero =>
      unfold runLen
      rw [if_pos hcnd, hprev (j - 1)]
      split <;> rfl
    | succ i2 =>
      unfold runLen
      rw [if_pos hcnd, hprev (j - 1)]
  unfold flmStep
  dsimp only
  rw [hk]
  by_cases hcase : bk < runLen s i j
  · rw [if_pos hcase]
    have hji : j = i := by
      by_contra hne
      rcases Nat.lt_or_ge j i with hlt | hge
      · have hsym := runLen_symm (s := s) i j hi hjn
        have hle := hmax j i hlt hi
        omega
      · have hgt : i < j := by omega
        have hiJ : i ∈ b2j s (s.getD i (' ')) := by simpa using cnd_diag hi hcnd
        have hsorted : (b2j s (s.getD i (' '))).Pairwise (· < ·) := b2j_sorted s _
        rw [hJ] at hsorted hiJ
        have hil1 : i ∈ l1 := by
          rcases List.mem_append.mp hiJ with h1 | h2
          · exact h1
          · rcases List.mem_cons.mp h2 with h3 | h4
            · omega
            · have hp2 : (j :: l2).Pairwise (· < ·) := (List.pairwise_append.mp hsorted).2.1
              have := (List.pairwise_cons.mp hp2).1 i h4
              omega
        have hle1 := hl1 i hil1
        have hle2 := runLen_le_diag (s := s) i j hi hjn
        omega
    subst hji
    refine ⟨?_, ⟨rfl, ?_, ?_⟩, ?_⟩
    · intro j2
      by_cases hj2 : j2 = j
      · subst hj2
        simp
      · dsimp only
        rw [if_neg hj2, hg j2]
        simp [List.mem_append, hj2]
    · have := runLen_le_left s j j
      dsimp only
      omega
    · intro i2 j2 h1 h2
      have := hmax i2 j2 h1 h2
      dsimp only
      omega
    · intro j2 hj2
      rcases List.mem_append.mp hj2 with h1 | h2
      · have := hl1 j2 h1
        dsimp only
        omega
      · have hj2e : j2 = j := by simpa using h2
        subst hj2e
        dsimp only
        omega
  · rw [if_neg hcase]
    refine ⟨?_, ⟨hdiag, hbound, hmax⟩, ?_⟩
    · intro j2
      by_cases hj2 : j2 = j
      · subst hj2
        simp
      · dsimp only
        rw [if_neg hj2, hg j2]
        simp [List.mem_append, hj2]
    · intro j2 hj2
      rcases List.mem_append.mp hj2 with h1 | h2
      · have := hl1 j2 h1
        dsimp only
        omega
      · have hj2e : j2 = j := by simpa using h2
        subst hj2e
        dsimp only
        omega

theorem flmFold_inv {s : List Char} {i : ℕ} (hi : i < s.length)
    {prev : ℕ → ℕ} (hprev : PrevOk s i prev) :
    ∀ (l2 l1 : List ℕ) (st : (ℕ → ℕ) × ℕ × ℕ × ℕ),
      b2j s (s.getD i (' ')) = l1 ++ l2 → InnerInv s i l1 st →
      InnerInv s i (l1 ++ l2) (l2.foldl (flmStep prev i) st) := by
  intro l2
  induction l2 with
  | nil =>
    intro l1 st hJ hinv
    simpa using hinv
  | cons j l2t ih =>
    intro l1 st hJ hinv
    have hstep := flmStep_inv hi hprev hJ hinv
    have hJ2 : b2j s (s.getD i (' ')) = (l1 ++ [j]) ++ l2t := by
      rw [hJ]
      simp
    have hres := ih (l1 ++ [j]) (flmStep prev i st j) hJ2 hstep
    rw [List.foldl_cons]
    have hl : (l1 ++ [j]) ++ l2t = l1 ++ j :: l2t := by simp
    rw [hl] at hres
    exact hres

theorem rowJs_full (s : List Char) (c : Char) : rowJs s 0 s.length c = b2j s c := by
  unfold rowJs
  apply List.filter_eq_self.mpr
  intro j hj
  have : j < s.length := (mem_b2j.mp hj).2.1
  simp [this]

theorem flmRow_inv {s : List Char} {i : ℕ} (hi : i < s.length)
    {st : (ℕ → ℕ) × ℕ × ℕ × ℕ} (hrow : RowInv s i st) :
    RowInv s (i + 1)
      ((rowJs s 0 s.length (s.getD i (' '))).foldl (flmStep st.1 i) ((fun _ => 0), st.2)) := by
  obtain ⟨hprev, hbd⟩ := hrow
  have hinit : InnerInv s i [] ((fun _ => 0), st.2) := by
    refine ⟨?_, hbd, ?_⟩
    · intro j
      simp
    · intro j hj
      simp at hj
  rw [rowJs_full]
  have hres := flmFold_inv hi hprev (b2j s (s.getD i (' '))) [] ((fun _ => 0), st.2) rfl hinit
  rw [List.nil_append] at hres
  obtain ⟨hg, ⟨hdiag, hbound, hmax⟩, hmem⟩ := hres
  refine ⟨?_, hdiag, hbound, ?_⟩
  · intro j
    rw [hg j]
    by_cases hj : j ∈ b2j s (s.getD i (' '))
    · rw [if_pos hj]
    · rw [if_neg hj]
      have hz : runLen s i j = 0 := runLen_eq_zero (by simpa using hj)
      exact hz.symm
  · intro i2 j h1 h2
    rcases Nat.lt_or_ge i2 i with hlt | hge
    · exact hmax i2 j hlt h2
    · have hie : i2 = i := by omega
      subst hie
      by_cases hj : j ∈ b2j s (s.getD i2 (' '))
      · exact hmem j hj
      · have hz : runLen s i2 j = 0 := runLen_eq_zero (by simpa using hj)
        omega

theorem flmRows_inv (s : List Char) :
    ∀ k, k ≤ s.length → RowInv s k ((List.range' 0 k).foldl
      (fun st i => (rowJs s 0 s.length (s.getD i (' '))).foldl (flmStep st.1 i)
        ((fun _ => 0), st.2))
      ((fun _ => 0), 0, 0, 0)) := by
  intro k
  induction k with
  | zero =>
    intro _
    refine ⟨fun j => rfl, rfl, by simp, ?_⟩
    intro i2 j h1 h2
    omega
  | succ k ih =>
    intro hk
    have hconcat : List.range' 0 (k + 1) = List.range' 0 k ++ [k] := by
      have h : List.range' 0 (k + 1) 1 = List.range' 0 k 1 ++ [0 + 1 * k] :=
        List.range'_concat 0 k
      simpa using h
    rw [hconcat, List.foldl_append]
    exact flmRow_inv (by omega) (ih (by omega))

theorem rowInv_flmRows (s : List Char) :
    RowInv s s.length (flmRows s s 0 s.length 0 s.length) :=
  flmRows_inv s s.length (le_refl _)

theorem extendLo_diag (s : List Char) :
    ∀ bi bk, extendLo s s 0 0 bi bi bk = (0, 0, bi + bk) := by
  intro bi
  induction bi with
  | zero =>
    intro bk
    unfold extendLo
    simp
  | succ b2 ih =>
    intro bk
    unfold extendLo
    rw [if_pos ⟨Nat.succ_pos b2, Nat.succ_pos b2, rfl⟩]
    rw [Nat.add_sub_cancel, ih (bk + 1)]
    simp only [Prod.mk.injEq, true_and]
    omega

theorem extendLo_stop (a b : List Char) (alo blo bi bj bk : ℕ) (h : ¬ alo < bi) :
    extendLo a b alo blo bi bj bk = (bi, bj, bk) := by
  cases bi with
  | zero => rfl
  | succ b2 =>
    unfold extendLo
    rw [if_neg]
    intro hc
    exact h hc.1

theorem extendHiGo_diag (s : List Char) :
    ∀ fuel m, m + fuel = s.length →
      extendHiGo s s s.length s.length 0 0 fuel m = s.length := by
  intro fuel
  induction fuel with
  | zero =>
    intro m hm
    unfold extendHiGo
    omega
  | succ f ih =>
    intro m hm
    unfold extendHiGo
    rw [if_pos ⟨by omega, by omega, rfl⟩]
    exact ih (m + 1) (by omega)

theorem flm_self (s : List Char) :
    findLongestMatch s s 0 s.length 0 s.length = (0, 0, s.length) := by
  have h := rowInv_flmRows s
  unfold RowInv BestDiag at h
  unfold findLongestMatch
  generalize hfr : flmRows s s 0 s.length 0 s.length = stv at h ⊢
  obtain ⟨g, b1, b2, b3⟩ := stv
  obtain ⟨-, hd, hb, -⟩ := h
  dsimp only at hd hb ⊢
  subst hd
  rw [extendLo_diag s b1 b3]
  dsimp only
  unfold extendHi
  rw [extendHiGo_diag s (s.length - (0 + (b1 + b3))) (b1 + b3) (by omega)]

theorem flm_degenerate (s : List Char) (alo blo bhi : ℕ) :
    (findLongestMatch s s alo alo blo bhi).2.2 = 0 := by
  have hrows : flmRows s s alo alo blo bhi = ((fun _ => 0), alo, blo, 0) := by
    unfold flmRows
    rw [Nat.sub_self]
    rfl
  unfold findLongestMatch
  rw [hrows]
  show (extendHi s s alo bhi (extendLo s s alo blo alo blo 0).1
      (extendLo s s alo blo alo blo 0).2.1 (extendLo s s alo blo alo blo 0).2.2).2.2 = 0
  rw [extendLo_stop s s alo blo alo blo 0 (lt_irrefl alo)]
  show (extendHi s s alo bhi alo blo 0).2.2 = 0
  unfold extendHi
  show extendHiGo s s alo bhi alo blo (alo - (alo + 0)) 0 = 0
  rw [Nat.add_zero, Nat.sub_self]
  rfl

theorem mb_degenerate (s : List Char) (fuel alo blo bhi : ℕ) :
    matchingBlocks s s fuel alo alo blo bhi = [] := by
  cases fuel with
  | zero => rfl
  | succ f =>
    unfold matchingBlocks
    dsimp only
    rw [if_pos (flm_degenerate s alo blo bhi)]

theorem matchingBlocks_self (s : List Char) (f : ℕ) (hn : s.length ≠ 0) :
    matchingBlocks s s (f + 1) 0 s.length 0 s.length = [(0, 0, s.length)] := by
  unfold matchingBlocks
  dsimp only
  rw [flm_self]
  dsimp only
  rw [if_neg hn]
  simp only [Nat.zero_add]
  rw [mb_degenerate s f 0 0 0, mb_degenerate s f s.length s.length s.length]
  simp

theorem matchedSize_self (s : List Char) : matchedSize s s = s.length := by
  unfold matchedSize
  by_cases hn : s.length = 0
  · rw [hn]
    rw [mb_degenerate s (0 + 0 + 1) 0 0 0]
    rfl
  · rw [matchingBlocks_self s (s.length + s.length) hn]
    simp

theorem ratio_self (s : List Char) : ratio s s = 1 := by
  unfold ratio calcRatio
  rw [matchedSize_self]
  by_cases hn : s.length + s.length = 0
  · rw [if_pos hn]
  · rw [if_neg hn]
    have hq : (0:ℚ) < (s.length : ℚ) := by
      have hz : s.length ≠ 0 := by omega
      exact_mod_cast Nat.pos_of_ne_zero hz
    have hcast : ((s.length + s.length : ℕ) : ℚ) = 2 * (s.length : ℚ) := by
      push_cast
      ring
    rw [hcast, fl_two_mul hq, fl_two_mul (fl_pos hq), fl_fl_pos hq]
    have hne : (2 : ℚ) * fl (s.length : ℚ) ≠ 0 :=
      ne_of_gt (mul_pos (by norm_num) (fl_pos hq))
    rw [div_self hne, fl_one]

theorem pyRound3_one : pyRound3 1 = 1 := by
  unfold pyRound3
  rw [one_mul]
  have h : rne ((1000:ℚ)) = (1000:ℤ) := by
    have h2 := rne_intCast 1000
    have h3 : (((1000:ℤ)):ℚ) = (1000:ℚ) := by norm_num
    rw [h3] at h2
    exact h2
  rw [h]
  have h4 : (((1000:ℤ):ℚ)) / 1000 = 1 := by norm_num
  rw [h4, fl_one]

/-- C4: `Evaluator.evaluate` classifies a response correct iff the
case-insensitive literal similarity (the 3-decimal-rounded
`SequenceMatcher` ratio) reaches the threshold 0.75, or, failing that,
the semantic-similarity score (the 3-decimal-rounded embedding cosine)
reaches the double value of the literal 0.8; when the literal threshold
is met the semantic step is never invoked, and a response equal to the
expected answer up to case yields literal similarity 1 and a correct
verdict with no semantic call. -/
theorem C4_evaluator_correctness (q r e : String) (emb : Except String ℚ) :
    ((evaluate q r e none emb).result.is_correct = true ↔
      ((3:ℚ)/4 ≤ text_similarity r e ∨ fl (4/5) ≤ semantic_similarity emb)) ∧
    ((3:ℚ)/4 ≤ text_similarity r e → (evaluate q r e none emb).semCalled = false) ∧
    (pyLower r = pyLower e →
      text_similarity r e = 1 ∧
      (evaluate q r e none emb).result.is_correct = true ∧
      (evaluate q r e none emb).semCalled = false) := by
  have hts1 : pyLower r = pyLower e → text_similarity r e = 1 := by
    intro hle
    unfold text_similarity
    rw [hle, ratio_self, pyRound3_one]
  by_cases h34 : (3:ℚ)/4 ≤ text_similarity r e
  · refine ⟨?_, fun _ => ?_, fun hle => ⟨hts1 hle, ?_, ?_⟩⟩
    · unfold evaluate
      dsimp only
      rw [if_pos h34]
      simp [h34]
    · unfold evaluate
      dsimp only
      rw [if_pos h34]
    · unfold evaluate
      dsimp only
      rw [if_pos h34]
    · unfold evaluate
      dsimp only
      rw [if_pos h34]
  · by_cases h45 : fl (4/5) ≤ semantic_similarity emb
    · refine ⟨?_, fun hc => absurd hc h34, fun hle => ?_⟩
      · unfold evaluate
        dsimp only
        rw [if_neg h34, if_pos h45]
        simp [h45]
      · have h1 : (3:ℚ)/4 ≤ text_similarity r e := by
          rw [hts1 hle]
          norm_num
        exact absurd h1 h34
    · refine ⟨?_, fun hc => absurd hc h34, fun hle => ?_⟩
      · unfold evaluate
        dsimp only
        rw [if_neg h34, if_neg h45]
        simp [h34, h45]
      · have h1 : (3:ℚ)/4 ≤ text_similarity r e := by
          rw [hts1 hle]
          norm_num
        exact absurd h1 h34

theorem C4_evaluator_correctness_witness :
    pyLower ("Hola") = pyLower ("hola") ∧
    text_similarity ("Hola") ("hola") = 1 ∧
    (evaluate ("q") ("Hola") ("hola") none (Except.ok 0)).result.is_correct = true ∧
    (evaluate ("q") ("Hola") ("hola") none (Except.ok 0)).semCalled = false := by
  have hlow : pyLower ("Hola") = pyLower ("hola") := by decide
  obtain ⟨ht, hic, hsc⟩ :=
    (C4_evaluator_correctness ("q") ("Hola") ("hola") (Except.ok 0)).2.2 hlow
  exact ⟨hlow, ht, hic, hsc⟩

/-- C5 (amended): `Evaluator.evaluate` never propagates an exception and
`is_correct` is always a definite boolean: an exception raised at the
literal-comparison stage is caught by the outer handler, giving
`is_correct = false` and a reasoning string that embeds the error
message; an exception raised inside the semantic-similarity call is
absorbed one level deeper into a score of 0 (so the verdict is a definite
`false` whenever the literal threshold also failed), but its message is
only logged to the console and does not appear in the reasoning string. -/
theorem C5_error_absorbed (q r e msg : String) (emb : Except String ℚ) :
    ((evaluate q r e (some msg) emb).result.is_correct = false ∧
     (evaluate q r e (some msg) emb).result.reasoning = evalErrorText ++ msg) ∧
    semantic_similarity (Except.error msg) = 0 ∧
    (¬ (3:ℚ)/4 ≤ text_similarity r e →
      (evaluate q r e none (Except.error msg)).result.is_correct = false) := by
  refine ⟨⟨rfl, rfl⟩, rfl, fun h => ?_⟩
  unfold evaluate
  dsimp only
  rw [if_neg h]
  have hsem : semantic_similarity (Except.error msg : Except String ℚ) = 0 := rfl
  rw [hsem]
  have hlt : ¬ fl (4/5) ≤ (0:ℚ) := not_le.mpr (fl_pos (by norm_num))
  rw [if_neg hlt]

theorem C5_error_absorbed_witness :
    (¬ (3:ℚ)/4 ≤ text_similarity ("aaaa") ("zzzz")) ∧
    (evaluate ("q") ("aaaa") ("zzzz") (some ("boom"))
      (Except.error ("boom"))).result.is_correct = false ∧
    (evaluate ("q") ("aaaa") ("zzzz") (some ("boom"))
      (Except.error ("boom"))).result.reasoning = evalErrorText ++ ("boom") ∧
    (evaluate ("q") ("aaaa") ("zzzz") none
      (Except.error ("boom"))).result.is_correct = false := by
  have hns : ¬ (3:ℚ)/4 ≤ text_similarity ("aaaa") ("zzzz") := by decide
  have h := C5_error_absorbed ("q") ("aaaa") ("zzzz") ("boom") (Except.error ("boom"))
  exact ⟨hns, h.1.1, h.1.2, h.2.2 hns⟩

/-- C5 counterexample: an exception in the semantic-similarity call is
absorbed as a 0 score whose message is only printed to the console, so
the returned reasoning string does not embed the error message, contrary
to the claim that any caught comparison exception yields "a reasoning
string embedding the error message". -/
theorem C5_counterexample :
    (evaluate ("q") ("aaaa") ("zzzz") none
      (Except.error ("boom"))).result.is_correct = false ∧
    strContains (evaluate ("q") ("aaaa") ("zzzz") none
      (Except.error ("boom"))).result.reasoning ("boom") = false := by
  decide
